import Mathlib

set_option maxHeartbeats 1000000

/-!
Verification of the ultralight Portal Network client core against its
specification.  The development shallowly embeds the history-network content
store (`HistoryProtocol.store` / `validateHeader` / `addBlockBody`), the
epoch-accumulator inclusion proofs (`generateInclusionProof` /
`verifyInclusionProof` over a free-algebra model of SHA-256), the uTP READ
socket packet handling (`handleDataPacket`, `generateSelectiveAckBitMask`),
the content writer chunker, the gossip rule, the uTP connection-id
allocation, and the client transport send path
(`sendPortalNetworkMessage`).  Code that the repository snapshot only
references (the `@chainsafe/persistent-merkle-tree` single-proof routines,
`util.js` gindex helpers, `ContentReader` / `ContentWriter`,
`PortalNetworkUTP.startingIdNrs`) is modelled from the specification; such
definitions carry a `Modelled from the spec:` doc comment.
-/

namespace Ultralight

/-! ### Hashes and SSZ Merkle single proofs -/

/-- Abstract 32-byte value (a hash or a leaf chunk).  SHA-256 of a pair of
children is modelled as the free binary constructor `node`, so distinct
argument pairs give distinct hashes. -/
inductive Hash where
  | chunk : Nat → Hash
  | node : Hash → Hash → Hash
deriving DecidableEq

/-- Root of the perfect binary subtree of depth `d` at horizontal position
`idx`, over the global leaf sequence `leaves` (the subtree covers leaves
`idx * 2 ^ d` to `(idx + 1) * 2 ^ d - 1`). -/
def subtreeRoot (leaves : Nat → Hash) : Nat → Nat → Hash
  | 0, idx => leaves idx
  | d + 1, idx => Hash.node (subtreeRoot leaves d (2 * idx)) (subtreeRoot leaves d (2 * idx + 1))

/-- One-level collapse of a leaf sequence: hash adjacent leaves pairwise. -/
def collapse (leaves : Nat → Hash) : Nat → Hash :=
  fun i => Hash.node (leaves (2 * i)) (leaves (2 * i + 1))

/-- Index of the sibling of the node at in-level index `k`. -/
def sibling (k : Nat) : Nat := if k % 2 = 0 then k + 1 else k - 1

/-- Modelled from the spec: the single-proof witness list produced by
`createProof` of `@chainsafe/persistent-merkle-tree` (library code absent
from src/).  The witnesses are the sibling subtree roots along the path from
leaf `k` of a depth-`d` tree up to the root, ordered leaf-sibling first. -/
def createProofWitnesses (leaves : Nat → Hash) : Nat → Nat → List Hash
  | 0, _ => []
  | d + 1, k => leaves (sibling k) :: createProofWitnesses (collapse leaves) d (k / 2)

/-- Modelled from the spec: the root reconstruction performed by
`EpochAccumulator.createFromProof` (library code absent from src/).  The
witnesses are folded bottom-up; the direction at each level is the
corresponding bit of the in-level leaf index `k`. -/
def rootFromBranch : Hash → Nat → List Hash → Hash
  | leaf, _, [] => leaf
  | leaf, k, w :: ws =>
      rootFromBranch (if k % 2 = 0 then Hash.node leaf w else Hash.node w leaf) (k / 2) ws

/-- Epoch Accumulator content: 8192 header records, each contributing a
block-hash chunk and a total-difficulty chunk, plus the SSZ list-length
mix-in chunk. -/
structure EpochAcc where
  blockHashChunk : Nat → Hash
  totalDifficultyChunk : Nat → Hash
  lengthChunk : Hash

/-- Leaf chunks of the data subtree of the epoch accumulator: record `i`
occupies leaf positions `2 * i` (block hash) and `2 * i + 1` (total
difficulty). -/
def EpochAcc.leaves (e : EpochAcc) : Nat → Hash :=
  fun m => if m % 2 = 0 then e.blockHashChunk (m / 2) else e.totalDifficultyChunk (m / 2)

/-- Hash tree root of the epoch accumulator: the depth-14 data subtree with
the list length mixed in at the top. -/
def EpochAcc.root (e : EpochAcc) : Hash :=
  Hash.node (subtreeRoot e.leaves 14 0) e.lengthChunk

/-! ### Block-number to gindex helpers -/

/-- Number of header records in one epoch accumulator. -/
def EPOCH_SIZE : Nat := 8192

/-- Modelled from the spec: `blockNumberToLeafIndex` of util.js (absent from
src/): `leaf_index = (block_number % 8192) * 2`. -/
def blockNumberToLeafIndex (b : Nat) : Nat := (b % EPOCH_SIZE) * 2

/-- Modelled from the spec: `epochIndexByBlocknumber` of util.js (absent
from src/): `epoch_index = floor(block_number / 8192)`. -/
def epochIndexByBlocknumber (b : Nat) : Nat := b / EPOCH_SIZE

/-- Modelled from the spec: `blockNumberToGindex` of util.js (absent from
src/): the generalized index of the header-record block-hash leaf inside the
epoch accumulator tree.  The leaf gindices of that tree are
`2 ^ 15 + leaf_index`. -/
def blockNumberToGindex (b : Nat) : Nat := 2 ^ 15 + blockNumberToLeafIndex b

/-- `HistoryProtocol.generateInclusionProof`: build the epoch accumulator
tree and return the single-proof witnesses for the header record of the
given block number, at gindex `blockNumberToGindex blockNumber`.  The tree
walk itself is the spec-modelled `createProofWitnesses`; the path consists
of the 14 data-subtree levels followed by the length mix-in level. -/
def generateInclusionProof (e : EpochAcc) (blockNumber : Nat) : List Hash :=
  createProofWitnesses e.leaves 14 (blockNumberToLeafIndex blockNumber) ++ [e.lengthChunk]

/-- `HistoryProtocol.verifyInclusionProof`: reconstruct the epoch
accumulator root from the leaf (the block hash) and the witnesses at the
gindex derived from the block number, and compare it with the baked-in root
for the block number's epoch.  The baked-in root list
(`epochRootByIndex`) is a constant file absent from src/ and is therefore a
parameter.  A proof whose witness count does not match the 15-step gindex
descriptor is rejected, as `createFromProof` throws on it.  Note
`blockNumberToGindex b - 2 ^ 15 = blockNumberToLeafIndex b` is the in-level
path index. -/
def verifyInclusionProof (epochRoots : Nat → Hash) (witnesses : List Hash)
    (blockHash : Hash) (blockNumber : Nat) : Bool :=
  witnesses.length == 15 &&
    (rootFromBranch blockHash (blockNumberToLeafIndex blockNumber) witnesses ==
      epochRoots (epochIndexByBlocknumber blockNumber))

/-! ### History network content store (`HistoryProtocol` of part_005) -/

/-- History network content types (`HistoryNetworkContentType`). -/
inductive ContentType where
  | blockHeader
  | blockBody
  | receipt
  | epochAccumulator
deriving DecidableEq

/-- Decoded `BlockHeaderWithProof` bytes: the header contributes its block
number and its hash (RLP decoding is an external pure codec), and the SSZ
union proof field is either absent or a witness list. -/
structure HeaderWithProof where
  headerNumber : Nat
  headerHash : Hash
  proof : Option (List Hash)
deriving DecidableEq

/-- A value held in the durable store: either decoded header-with-proof
bytes or raw content bytes. -/
inductive StoredValue where
  | headerWithProof : HeaderWithProof → StoredValue
  | raw : List Nat → StoredValue
deriving DecidableEq

/-- Replace-or-append write of a key-value store (the semantics of the
level-db `put`). -/
def dbput {κ ν : Type} [DecidableEq κ] (db : List (κ × ν)) (k : κ) (v : ν) : List (κ × ν) :=
  if db.any (fun e => e.1 = k) then db.map (fun e => if e.1 = k then (k, v) else e)
  else db ++ [(k, v)]

/-- Observable state of a `HistoryProtocol` instance: the durable store
keyed by `getContentKey(contentType, hash)`, the block-number index, the
emitted `ContentAdded` events and the gossip queue. -/
structure HState where
  db : List ((ContentType × Hash) × StoredValue)
  blockIndex : List (Nat × Hash)
  events : List (Hash × ContentType)
  gossip : List (Hash × ContentType)
deriving DecidableEq

/-- First proof-of-stake block number; only headers below it carry an epoch
accumulator proof (`header.number < 15537393n` in `validateHeader`). -/
def MERGE_BLOCK_NUMBER : Nat := 15537393

/-- The writes `validateHeader` performs once the proof check has passed:
`indexBlockhash` records the header hash under the block number, and `put`
stores the serialized header-with-proof under the block-header content
key. -/
def validateHeaderCommit (st : HState) (value : HeaderWithProof) (contentHash : Hash) : HState :=
  { st with
    blockIndex := dbput st.blockIndex value.headerNumber value.headerHash
    db := dbput st.db (ContentType.blockHeader, contentHash) (StoredValue.headerWithProof value) }

/-- `HistoryProtocol.validateHeader`: pre-merge headers must carry an
inclusion proof that verifies against the baked-in epoch root; a missing or
invalid proof throws before anything is written.  On success (and for
post-merge headers unconditionally) the block index and the durable store
are updated. -/
def validateHeader (epochRoots : Nat → Hash) (st : HState) (value : HeaderWithProof)
    (contentHash : Hash) : Except String HState :=
  if value.headerNumber < MERGE_BLOCK_NUMBER then
    match value.proof with
    | none => .error "Received block header without proof"
    | some witnesses =>
        if verifyInclusionProof epochRoots witnesses contentHash value.headerNumber then
          .ok (validateHeaderCommit st value contentHash)
        else .error "Received block header with invalid proof"
  else .ok (validateHeaderCommit st value contentHash)

/-- `HistoryProtocol.addBlockBody`: an empty body is ignored.  Otherwise the
code tries to reassemble a block from the available header and the offered
body (`reassembleBlock` is an external pure function; its outcome on the
inputs at hand is the parameter `reassembled`), falling back to a network
fetch via `ETH.getBlockByHash` (outcome parameter `networkBlock`).  Whether
or not a block was obtained, the body bytes are written to the store: the
failure branch logs `Adding anyway for testing...` and stores them too. -/
def addBlockBody (st : HState) (reassembled networkBlock : Option Unit)
    (value : List Nat) (hashKey : Hash) : HState :=
  if value.length = 0 then st
  else
    let block := match reassembled with
      | some b => some b
      | none => networkBlock
    match block with
    | some _ =>
        { st with db := dbput st.db (ContentType.blockBody, hashKey) (StoredValue.raw value) }
    | none =>
        { st with db := dbput st.db (ContentType.blockBody, hashKey) (StoredValue.raw value) }

/-- `HistoryProtocol.store`: dispatch on the content type.  Block bodies go
through `addBlockBody`; block headers through `validateHeader`, whose
exception is caught and only logged; other types are written directly.
Afterwards a `ContentAdded` event is always emitted and, when the routing
table is non-empty (`hasPeers`), the key is enqueued for gossip.  A
block-header call whose bytes do not decode (`StoredValue.raw`) throws
inside the try and is likewise only logged. -/
def store (epochRoots : Nat → Hash) (reassembled networkBlock : Option Unit) (hasPeers : Bool)
    (st : HState) (contentType : ContentType) (hashKey : Hash) (value : StoredValue) : HState :=
  let st1 :=
    match contentType, value with
    | ContentType.blockBody, StoredValue.raw bytes =>
        addBlockBody st reassembled networkBlock bytes hashKey
    | ContentType.blockBody, StoredValue.headerWithProof _ => st
    | ContentType.blockHeader, StoredValue.headerWithProof hwp =>
        (match validateHeader epochRoots st hwp hashKey with
          | .ok s => s
          | .error _ => st)
    | ContentType.blockHeader, StoredValue.raw _ => st
    | t, v => { st with db := dbput st.db (t, hashKey) v }
  let st2 := { st1 with events := st1.events ++ [(hashKey, contentType)] }
  if hasPeers then { st2 with gossip := st2.gossip ++ [(hashKey, contentType)] } else st2

/-! ### uTP READ socket (`UtpSocket` of part_003) -/

/-- JS sparse-array element assignment `l[i] = v`: in-range indices are
overwritten, out-of-range indices extend the array with holes. -/
def setAt {α : Type} (l : List (Option α)) (i : Nat) (v : α) : List (Option α) :=
  if i < l.length then l.set i (some v)
  else l ++ List.replicate (i - l.length) none ++ [some v]

/-- The element the `findIndex` expression of `handleDataPacket` selects
from `future`: the entry whose successor entry is the first undefined one
(the last entry of the leading defined run). -/
def lastOfRun {α : Type} : List (Option α) → Option α
  | [] => none
  | [x] => x
  | x :: y :: rest => if y.isSome then lastOfRun (y :: rest) else x

/-- Modelled from the spec: the `bitmap` bit-position table imported by
`generateSelectiveAckBitMask` (its constants file is absent from src/); the
table maps the loop index to a 1-based position in the 32-bit window.  The
physical byte layout is immaterial to the claims, so the identity table is
used. -/
def utpBitmap : List Nat := (List.range 32).map (· + 1)

/-- `UtpSocket.generateSelectiveAckBitMask`: a 32-slot window, initially
false, where for each loop index `i < 32` the bit at position
`bitmap[i] - 1` is set when seq number `ackNr + 1 + i` is present in the
received list (`this.ackNrs.includes(this.ackNr + 1 + i)`).  Serialization
of the window to 4 bytes is omitted. -/
def generateSelectiveAckBitMask (ackNr : Nat) (ackNrs : List (Option Nat)) : List Bool :=
  (List.range 32).foldl
    (fun window i =>
      if ackNrs.contains (some (ackNr + 1 + i)) then
        window.set (utpBitmap.getD i 1 - 1) true
      else window)
    (List.replicate 32 false)

/-- Claim-side definition, following the specification text: a window whose
bit `i` is set iff seq number `ackNr + 2 + i` has been received (coverage
`ack_nr+2 ... ack_nr+33`). -/
def selectiveAckWindowSpec (ackNr : Nat) (ackNrs : List (Option Nat)) : List Bool :=
  (List.range 32).map (fun i => ackNrs.contains (some (ackNr + 2 + i)))

/-- Modelled from the spec: `ContentReader.addPacket` (reader source absent
from src/): store the payload at index `seqNr - startingDataNr` of the
packet array.  A seq number below the starting one would be a negative JS
index (a plain property, not an array element) and leaves the array
unchanged. -/
def readerAdd (start : Nat) (reader : List (Option (List Nat))) (seq : Nat)
    (payload : List Nat) : List (Option (List Nat)) :=
  if start ≤ seq then setAt reader (seq - start) payload else reader

/-- Modelled from the spec: the bytes a completed reader delivers: the
concatenation of the stored payloads in packet-array (seq number) order. -/
def readerBytes (reader : List (Option (List Nat))) : List Nat :=
  (reader.filterMap id).flatten

/-- Reply sent by the READ socket after processing a DATA packet. -/
inductive AckReply where
  | regular : Nat → AckReply
  | selective : List Bool → AckReply
  | closed : List Nat → AckReply
deriving DecidableEq

/-- Observable per-socket state used by `handleDataPacket`: `seqNr`,
`ackNr`, the sparse received array `ackNrs`, the FIN bookkeeping and the
reader's packet array. -/
structure ReadSocket where
  seqNr : Nat
  ackNr : Nat
  ackNrs : List (Option Nat)
  gotFin : Bool
  finNr : Option Nat
  readerStart : Nat
  reader : List (Option (List Nat))
deriving DecidableEq

/-- `UtpSocket.handleDataPacket`: classify the packet as in-order
(`expected`), which the source only tests when more than one entry has been
recorded (`this.ackNrs.length > 1`); bump `seqNr`; record the seq number in
the sparse array at offset `seqNr - ackNrs[0]` (a negative offset writes a
plain property and leaves the array unchanged); add the payload to the
reader.  An expected packet advances `ackNr` to the end of the defined run
starting at the packet's offset (a negative offset makes `slice` count from
the end, clamped at 0) and sends a regular ACK (closing the socket if this
completes a transfer whose FIN is pending); an unexpected packet leaves
`ackNr` alone and replies with a selective-ACK bitmask over the updated
array.  Timeout bookkeeping and logging are omitted. -/
def handleDataPacket (st : ReadSocket) (seq : Nat) (payload : List Nat) :
    ReadSocket × AckReply :=
  let expected := if st.ackNrs.length > 1 then decide (st.ackNr + 1 = seq) else true
  let st := { st with seqNr := st.seqNr + 1 }
  let buf :=
    match st.ackNrs.getD 0 none with
    | none => [some seq]
    | some base => if base ≤ seq then setAt st.ackNrs (seq - base) seq else st.ackNrs
  let rdr := readerAdd st.readerStart st.reader seq payload
  let st := { st with ackNrs := buf, reader := rdr }
  if expected then
    let start :=
      match buf.getD 0 none with
      | some b => if b ≤ seq then seq - b else buf.length - (b - seq)
      | none => 0
    let newAck := (lastOfRun (buf.drop start)).getD 0
    let st := { st with ackNr := newAck }
    if st.gotFin ∧ st.finNr = some newAck then (st, AckReply.closed (readerBytes st.reader))
    else (st, AckReply.regular newAck)
  else (st, AckReply.selective (generateSelectiveAckBitMask st.ackNr buf))

/-- Feed a list of DATA packets (seq number and payload) to a READ socket in
the given order. -/
def runRead (st : ReadSocket) (pkts : List (Nat × List Nat)) : ReadSocket :=
  pkts.foldl (fun s p => (handleDataPacket s p.1 p.2).1) st

/-- A freshly connected READ socket: empty received array, empty reader,
no FIN seen. -/
def initialReadSocket (a0 base : Nat) : ReadSocket :=
  { seqNr := 1, ackNr := a0, ackNrs := [], gotFin := false, finNr := none,
    readerStart := base, reader := [] }

/-! ### Claim-side notions for the READ socket -/

/-- Length of the contiguous run of received seq numbers starting at `base`:
the largest `m` such that `base`, ..., `base + m - 1` have all been
delivered.  `base + runLen base delivered - 1` is the claim-side largest
contiguous seq number received. -/
def runLen (base : Nat) (delivered : List Nat) : Nat :=
  Nat.findGreatest (fun m => ∀ j < m, (base + j) ∈ delivered) delivered.length

/-- Length the sparse received array reaches after the given deliveries:
one past the largest offset written. -/
def bufLen (base : Nat) (delivered : List Nat) : Nat :=
  delivered.foldl (fun m s => max m (s - base + 1)) 0

/-- The sparse array `buf` faithfully records the delivered seq numbers as
offsets from `base`. -/
def BufRep (base : Nat) (delivered : List Nat) (buf : List (Option Nat)) : Prop :=
  buf.length = bufLen base delivered ∧
    ∀ j, buf.getD j none = if base + j ∈ delivered then some (base + j) else none

/-- Invariant tying a READ socket to the multiset of deliveries: the sparse
array represents them and `ackNr` is the largest contiguous seq number
received. -/
def AckInv (base : Nat) (delivered : List Nat) (st : ReadSocket) : Prop :=
  BufRep base delivered st.ackNrs ∧ st.ackNr = base + runLen base delivered - 1

/-- Insert a packet into a seq-number-sorted packet list. -/
def insertBySeq (p : Nat × List Nat) : List (Nat × List Nat) → List (Nat × List Nat)
  | [] => [p]
  | q :: rest => if p.1 ≤ q.1 then p :: q :: rest else q :: insertBySeq p rest

/-- Sort a packet list by seq number (insertion sort). -/
def sortBySeq : List (Nat × List Nat) → List (Nat × List Nat)
  | [] => []
  | p :: rest => insertBySeq p (sortBySeq rest)

/-- Claim-side definition: the concatenation of the packets' payloads sorted
by seq number. -/
def sortedConcat (pkts : List (Nat × List Nat)) : List Nat :=
  (sortBySeq pkts).flatMap Prod.snd

/-- Strict ordering of packets by seq number is vacuously antisymmetric. -/
instance : IsAntisymm (Nat × List Nat) (fun p q => p.1 < q.1) :=
  ⟨fun _ _ h1 h2 => absurd (Nat.lt_trans h1 h2) (Nat.lt_irrefl _)⟩

/-! ### Content writer chunking (`ContentWriter`, modelled) -/

/-- Fixed uTP payload size in bytes. -/
def PAYLOAD_SIZE : Nat := 512

/-- Chunk splitter with explicit fuel (any fuel at least the content length
yields the full chunking). -/
def chunkFuel : Nat → List Nat → List (List Nat)
  | 0, _ => []
  | _, [] => []
  | f + 1, c => c.take PAYLOAD_SIZE :: chunkFuel f (c.drop PAYLOAD_SIZE)

/-- Modelled from the spec: `ContentWriter.chunk` (writer source absent from
src/): split the content into consecutive 512-byte pieces, the last one
possibly shorter. -/
def chunk (c : List Nat) : List (List Nat) := chunkFuel c.length c

/-- Modelled from the spec: the seq numbers the writer assigns to its
chunks: consecutive values starting at the writer's starting seq number. -/
def dataNrs (startingSeqNr : Nat) (c : List Nat) : List Nat :=
  (List.range (chunk c).length).map (· + startingSeqNr)

/-! ### uTP connection-id allocation (modelled from the spec) -/

/-- Direction of an open uTP content request. -/
inductive RequestCode where
  | foundcontentWrite
  | findcontentRead
  | offerWrite
  | acceptRead
deriving DecidableEq

/-- Role of a uTP socket. -/
inductive SocketRole where
  | read
  | write
deriving DecidableEq

/-- Socket role determined by the request direction. -/
def socketRoleOf : RequestCode → SocketRole
  | RequestCode.foundcontentWrite => SocketRole.write
  | RequestCode.offerWrite => SocketRole.write
  | RequestCode.findcontentRead => SocketRole.read
  | RequestCode.acceptRead => SocketRole.read

/-- Modelled from the spec: `PortalNetworkUTP.startingIdNrs` (absent from
src/): from the initiator-chosen 16-bit connection id `c`, the pair
(send id, receive id) for each request direction; FOUNDCONTENT/WRITE and
ACCEPT/READ use `snd = c + 1`, `rcv = c`, while FINDCONTENT/READ and
OFFER/WRITE swap the roles. -/
def startingIdNrs (c : Nat) : RequestCode → Nat × Nat
  | RequestCode.foundcontentWrite => (c + 1, c)
  | RequestCode.findcontentRead => (c, c + 1)
  | RequestCode.offerWrite => (c, c + 1)
  | RequestCode.acceptRead => (c + 1, c)

/-- Connection ids and role of a freshly created uTP socket. -/
structure UtpSocketIds where
  sndConnectionId : Nat
  rcvConnectionId : Nat
  role : SocketRole
deriving DecidableEq

/-- Modelled from the spec: `PortalNetworkUTP.createPortalNetworkUTPSocket`
(absent from src/; its observable behavior is pinned by the part_002 test):
build a socket with the ids of `startingIdNrs` and the role of the request
code. -/
def createPortalNetworkUTPSocket (rc : RequestCode) (c : Nat) : UtpSocketIds :=
  { sndConnectionId := (startingIdNrs c rc).1
    rcvConnectionId := (startingIdNrs c rc).2
    role := socketRoleOf rc }

/-! ### Gossip (`gossipHistoryNetworkContent` of part_004) -/

/-- A routing-table peer as seen by the gossip rule: node id, advertised
radius, and the set of content keys already OFFERed to it. -/
structure GossipPeer where
  nodeId : Nat
  radius : Nat
  knownContent : List Nat
deriving DecidableEq

/-- XOR metric on 256-bit ids. -/
def distance (a b : Nat) : Nat := a ^^^ b

/-- Insert a peer into a list sorted by XOR distance to `cid`. -/
def insertByDist (cid : Nat) (p : GossipPeer) : List GossipPeer → List GossipPeer
  | [] => [p]
  | q :: rest =>
      if distance p.nodeId cid ≤ distance q.nodeId cid then p :: q :: rest
      else q :: insertByDist cid p rest

/-- Sort peers by XOR distance to `cid` (insertion sort). -/
def sortByDist (cid : Nat) : List GossipPeer → List GossipPeer
  | [] => []
  | p :: rest => insertByDist cid p (sortByDist cid rest)

/-- Modelled from the spec: `RoutingTable.nearest` (absent from src/):
up to `n` peers ordered by XOR distance to the target. -/
def nearest (peers : List GossipPeer) (cid : Nat) (n : Nat) : List GossipPeer :=
  (sortByDist cid peers).take n

/-- `HistoryProtocol.gossipHistoryNetworkContent`: take the 5 peers nearest
to the content id and OFFER the key to those that have not been OFFERed it
before and whose advertised radius strictly exceeds their distance to the
content id.  Returns the list of peers that receive an OFFER. -/
def gossipHistoryNetworkContent (peers : List GossipPeer) (contentKey contentId : Nat) :
    List GossipPeer :=
  (nearest peers contentId 5).filter
    (fun p => !(p.knownContent.contains contentKey) && distance p.nodeId contentId < p.radius)

/-! ### Client send path (`PortalNetwork` of part_006) -/

/-- Overlay / transport network ids relevant to the send path. -/
inductive NetId where
  | history
  | stateNet
  | beacon
  | utp
deriving DecidableEq

/-- Environment of one `sendPortalNetworkMessage` call: whether the caller
passed a full ENR or a node-id string, whether the network is registered and
its routing table finds the peer, whether the discv5 TALKREQ throws, and the
TALKRESP bytes otherwise. -/
structure SendEnv where
  enrDirect : Bool
  networkRegistered : Bool
  routingHit : Bool
  talkFails : Bool
  response : List Nat
deriving DecidableEq

/-- The discv5 protocol id a call stamps on the TALKREQ:
`utpMessage !== undefined` redirects it to the uTP network. -/
def messageNetworkOf (networkId : NetId) (utpMessage : Option Bool) : NetId :=
  if utpMessage.isSome then NetId.utp else networkId

/-- `PortalNetwork.sendPortalNetworkMessage`: resolve the destination (an
ENR argument is used as is, a string is looked up in the network's routing
table; the unverified-session fallback is commented out in the source); with
no reachable address return an empty byte array.  A TALKREQ failure is
swallowed into an empty byte array unless the `networkId` argument is the
uTP network id, in which case it is rethrown.  The `utpMessage` flag only
selects the wire protocol id (`messageNetworkOf`) stamped on the TALKREQ. -/
def sendPortalNetworkMessage (env : SendEnv) (networkId : NetId)
    (utpMessage : Option Bool) : Except String (List Nat) :=
  let nodeAddr := env.enrDirect || (env.networkRegistered && env.routingHit)
  if nodeAddr = false then .ok []
  else if env.talkFails then
    if networkId = NetId.utp then .error "Error sending TALKREQ message" else .ok []
  else .ok env.response

/-- `PortalNetworkUTP.closeRequest` as observed by the part_002 test and the
spec: remove the open content request keyed by (peer id, connection id). -/
def closeRequest (requests : List ((String × Nat) × Nat)) (connId : Nat) (peerId : String) :
    List ((String × Nat) × Nat) :=
  requests.filter (fun r => !(r.1 == (peerId, connId)))

/-- The uTP `Send` event handler installed by the `PortalNetwork`
constructor: forward the datagram via `sendPortalNetworkMessage` (with
`utpMessage = true`); if that throws, close the open content request of the
connection id read from the packet header. -/
def utpSendHandler (requests : List ((String × Nat) × Nat)) (peerId : String) (connId : Nat)
    (sendResult : Except String (List Nat)) : List ((String × Nat) × Nat) :=
  match sendResult with
  | .ok _ => requests
  | .error _ => closeRequest requests connId peerId

/-! ### Concrete instances used by witnesses -/

/-- A concrete epoch accumulator with pairwise distinct chunks. -/
def epochW : EpochAcc :=
  { blockHashChunk := fun i => Hash.chunk (2 * i)
    totalDifficultyChunk := fun i => Hash.chunk (2 * i + 1)
    lengthChunk := Hash.chunk 99 }

/-- The empty history protocol state. -/
def hstate0 : HState := { db := [], blockIndex := [], events := [], gossip := [] }

/-- A concrete pre-merge header offered without an inclusion proof. -/
def hwpW : HeaderWithProof := { headerNumber := 0, headerHash := Hash.chunk 1, proof := none }

/-- A concrete gossip peer. -/
def gossipW : GossipPeer := { nodeId := 0, radius := 10, knownContent := [] }

/-- A concrete send environment with no reachable address. -/
def envW : SendEnv :=
  { enrDirect := false, networkRegistered := false, routingHit := false,
    talkFails := true, response := [] }

/-! ## Lemmas on the Merkle single-proof model -/

theorem createProofWitnesses_length (d : Nat) :
    ∀ (leaves : Nat → Hash) (k : Nat), (createProofWitnesses leaves d k).length = d := by
  induction d with
  | zero => intro leaves k; rfl
  | succ d ih => intro leaves k; simp [createProofWitnesses, ih]

theorem subtreeRoot_collapse (d : Nat) :
    ∀ (leaves : Nat → Hash) (m : Nat),
      subtreeRoot leaves (d + 1) m = subtreeRoot (collapse leaves) d m := by
  induction d with
  | zero => intro leaves m; rfl
  | succ d ih =>
      intro leaves m
      show Hash.node (subtreeRoot leaves (d + 1) (2 * m)) (subtreeRoot leaves (d + 1) (2 * m + 1)) =
        Hash.node (subtreeRoot (collapse leaves) d (2 * m)) (subtreeRoot (collapse leaves) d (2 * m + 1))
      rw [ih leaves (2 * m), ih leaves (2 * m + 1)]

theorem rootFromBranch_createProofWitnesses (d : Nat) :
    ∀ (leaves : Nat → Hash) (k : Nat), k < 2 ^ d →
      rootFromBranch (leaves k) k (createProofWitnesses leaves d k) = subtreeRoot leaves d 0 := by
  induction d with
  | zero =>
      intro leaves k hk
      have hk0 : k = 0 := by omega
      subst hk0; rfl
  | succ d ih =>
      intro leaves k hk
      have hdiv : k / 2 < 2 ^ d := by
        have h2 : 2 ^ (d + 1) = 2 ^ d * 2 := by rw [pow_succ]
        exact (Nat.div_lt_iff_lt_mul (by omega)).mpr (h2 ▸ hk)
      rw [createProofWitnesses, rootFromBranch]
      have hpair : (if k % 2 = 0 then Hash.node (leaves k) (leaves (sibling k))
          else Hash.node (leaves (sibling k)) (leaves k)) = collapse leaves (k / 2) := by
        unfold collapse sibling
        by_cases hpar : k % 2 = 0
        · rw [if_pos hpar, if_pos hpar]
          have e1 : 2 * (k / 2) = k := by omega
          rw [e1]
        · rw [if_neg hpar, if_neg hpar]
          have e1 : 2 * (k / 2) = k - 1 := by omega
          have e2 : k - 1 + 1 = k := by omega
          rw [e1, e2]
      rw [hpair, ih (collapse leaves) (k / 2) hdiv]
      exact (subtreeRoot_collapse d leaves 0).symm

theorem rootFromBranch_append (ws : List Hash) :
    ∀ (leaf : Hash) (k : Nat) (ws2 : List Hash),
      rootFromBranch leaf k (ws ++ ws2) =
        rootFromBranch (rootFromBranch leaf k ws) (k / 2 ^ ws.length) ws2 := by
  induction ws with
  | nil => intro leaf k ws2; simp [rootFromBranch]
  | cons w ws ih =>
      intro leaf k ws2
      have hdiv : k / 2 / 2 ^ ws.length = k / 2 ^ (w :: ws).length := by
        rw [Nat.div_div_eq_div_mul, List.length_cons, pow_succ, Nat.mul_comm]
      rw [List.cons_append, rootFromBranch, rootFromBranch, ih, hdiv]

theorem generateInclusionProof_root (e : EpochAcc) (b : Nat) :
    rootFromBranch (e.blockHashChunk (b % EPOCH_SIZE)) (blockNumberToLeafIndex b)
        (generateInclusionProof e b) = EpochAcc.root e := by
  have hmod : b % EPOCH_SIZE < 8192 := Nat.mod_lt b (by decide)
  have hk : blockNumberToLeafIndex b < 2 ^ 14 := by
    unfold blockNumberToLeafIndex
    omega
  have hleaf : e.leaves (blockNumberToLeafIndex b) = e.blockHashChunk (b % EPOCH_SIZE) := by
    unfold EpochAcc.leaves blockNumberToLeafIndex
    have h2 : b % EPOCH_SIZE * 2 % 2 = 0 := by omega
    rw [if_pos h2]
    have h3 : b % EPOCH_SIZE * 2 / 2 = b % EPOCH_SIZE := by omega
    rw [h3]
  rw [← hleaf]
  unfold generateInclusionProof
  rw [rootFromBranch_append, createProofWitnesses_length,
    rootFromBranch_createProofWitnesses 14 e.leaves _ hk,
    Nat.div_eq_of_lt hk]
  rfl

theorem rootFromBranch_inj (ws : List Hash) :
    ∀ (ws' : List Hash) (leaf leaf' : Hash) (k : Nat),
      ws.length = ws'.length →
      rootFromBranch leaf k ws = rootFromBranch leaf' k ws' →
      leaf = leaf' ∧ ws = ws' := by
  induction ws with
  | nil =>
      intro ws' leaf leaf' k hlen h
      have hnil : ws' = [] := List.length_eq_zero.mp hlen.symm
      subst hnil
      exact ⟨h, rfl⟩
  | cons w ws ih =>
      intro ws' leaf leaf' k hlen h
      cases ws' with
      | nil => simp at hlen
      | cons w' ws'' =>
          simp only [List.length_cons, Nat.add_right_cancel_iff] at hlen
          rw [rootFromBranch, rootFromBranch] at h
          obtain ⟨hpair, htail⟩ := ih ws'' _ _ (k / 2) hlen h
          by_cases hk : k % 2 = 0
          · rw [if_pos hk, if_pos hk] at hpair
            obtain ⟨h1, h2⟩ := Hash.node.inj hpair
            exact ⟨h1, by rw [h2, htail]⟩
          · rw [if_neg hk, if_neg hk] at hpair
            obtain ⟨h1, h2⟩ := Hash.node.inj hpair
            exact ⟨h2, by rw [h1, htail]⟩

theorem generateInclusionProof_length (e : EpochAcc) (b : Nat) :
    (generateInclusionProof e b).length = 15 := by
  unfold generateInclusionProof
  rw [List.length_append, createProofWitnesses_length]
  rfl

/-- C8: for every block number whose epoch accumulator is available (the
baked-in root for its epoch equals the accumulator's hash tree root), the
proof returned by `generateInclusionProof` is accepted by
`verifyInclusionProof` for the corresponding block hash and block number;
and replacing any of the 15 witnesses by a different value makes
`verifyInclusionProof` reject. -/
theorem inclusionProof_roundtrip_and_tamper (epochRoots : Nat → Hash) (e : EpochAcc) (b : Nat)
    (hroot : epochRoots (epochIndexByBlocknumber b) = EpochAcc.root e) :
    verifyInclusionProof epochRoots (generateInclusionProof e b)
        (e.blockHashChunk (b % EPOCH_SIZE)) b = true ∧
    ∀ i : Nat, i < 15 → ∀ w : Hash,
      w ≠ (generateInclusionProof e b).getD i (Hash.chunk 0) →
      verifyInclusionProof epochRoots ((generateInclusionProof e b).set i w)
        (e.blockHashChunk (b % EPOCH_SIZE)) b = false := by
  have hlen := generateInclusionProof_length e b
  constructor
  · unfold verifyInclusionProof
    rw [Bool.and_eq_true, beq_iff_eq, beq_iff_eq]
    exact ⟨hlen, by rw [generateInclusionProof_root e b, hroot]⟩
  · intro i hi w hw
    by_contra hcon
    rw [Bool.not_eq_false] at hcon
    unfold verifyInclusionProof at hcon
    rw [Bool.and_eq_true, beq_iff_eq, beq_iff_eq] at hcon
    obtain ⟨-, heq⟩ := hcon
    rw [hroot, ← generateInclusionProof_root e b] at heq
    have hlenset : ((generateInclusionProof e b).set i w).length =
        (generateInclusionProof e b).length := List.length_set _ _ _
    obtain ⟨-, hws⟩ := rootFromBranch_inj _ _ _ _ _ hlenset heq
    apply hw
    have hi' : i < ((generateInclusionProof e b).set i w).length := by
      rw [hlenset, hlen]; exact hi
    calc w = ((generateInclusionProof e b).set i w).getD i (Hash.chunk 0) := by
            rw [List.getD_eq_getElem _ _ hi']
            exact (List.getElem_set_self _).symm
      _ = (generateInclusionProof e b).getD i (Hash.chunk 0) := by rw [hws]

/-- Witness for C8 at a concrete epoch accumulator and block number. -/
theorem inclusionProof_roundtrip_and_tamper_witness :
    verifyInclusionProof (fun _ => EpochAcc.root epochW) (generateInclusionProof epochW 1000)
        (epochW.blockHashChunk (1000 % EPOCH_SIZE)) 1000 = true ∧
    ∀ i : Nat, i < 15 → ∀ w : Hash,
      w ≠ (generateInclusionProof epochW 1000).getD i (Hash.chunk 0) →
      verifyInclusionProof (fun _ => EpochAcc.root epochW)
        ((generateInclusionProof epochW 1000).set i w)
        (epochW.blockHashChunk (1000 % EPOCH_SIZE)) 1000 = false :=
  inclusionProof_roundtrip_and_tamper (fun _ => EpochAcc.root epochW) epochW 1000 rfl

/-- C9: the pre-merge header inclusion proof is a 15-witness single proof;
the leaf index of block `b` is `(b % 8192) * 2` (2000 for block 1000), its
gindex is `2 ^ 15 + leaf_index` (a 15-deep generalized index), and the epoch
index is `b / 8192`. -/
theorem blockNumberToGindex_leafIndex_spec :
    blockNumberToLeafIndex 1000 = 2000 ∧
    ∀ b : Nat,
      blockNumberToLeafIndex b = b % 8192 * 2 ∧
      blockNumberToGindex b = 2 ^ 15 + blockNumberToLeafIndex b ∧
      2 ^ 15 ≤ blockNumberToGindex b ∧ blockNumberToGindex b < 2 ^ 16 ∧
      epochIndexByBlocknumber b = b / 8192 ∧
      ∀ e : EpochAcc, (generateInclusionProof e b).length = 15 := by
  refine ⟨by decide, fun b => ⟨rfl, rfl, ?_, ?_, rfl, fun e => generateInclusionProof_length e b⟩⟩
  · unfold blockNumberToGindex
    omega
  · have hmod : b % EPOCH_SIZE < 8192 := Nat.mod_lt b (by decide)
    unfold blockNumberToGindex blockNumberToLeafIndex
    omega

/-! ## Content store theorems (C1, C2) -/

/-- C1 counterexample: offering a pre-merge header without an inclusion
proof leaves the durable store (and the block index) unchanged, yet a
`ContentAdded` event IS emitted — refuting the claim that no `ContentAdded`
event is emitted for rejected headers. -/
theorem store_invalidProof_event_cex :
    store (fun _ => Hash.chunk 0) none none false hstate0 ContentType.blockHeader (Hash.chunk 2)
        (StoredValue.headerWithProof hwpW) =
      { db := [], blockIndex := [], events := [(Hash.chunk 2, ContentType.blockHeader)],
        gossip := [] } ∧
    [(Hash.chunk 2, ContentType.blockHeader)] ≠ ([] : List (Hash × ContentType)) :=
  ⟨rfl, by decide⟩

/-- C1 (amended): a `store` call with a pre-merge block header whose
inclusion proof is missing or invalid leaves the durable store and the block
index unchanged, but a `ContentAdded` event is emitted anyway (and the key
is enqueued for gossip when peers are known): the error thrown by
`validateHeader` is caught and only logged. -/
theorem store_invalidHeaderProof_rejected_but_event_emitted
    (epochRoots : Nat → Hash) (reassembled networkBlock : Option Unit) (hasPeers : Bool)
    (st : HState) (hwp : HeaderWithProof) (hashKey : Hash)
    (hpre : hwp.headerNumber < MERGE_BLOCK_NUMBER)
    (hbad : ∀ w, hwp.proof = some w →
      verifyInclusionProof epochRoots w hashKey hwp.headerNumber = false) :
    store epochRoots reassembled networkBlock hasPeers st ContentType.blockHeader hashKey
        (StoredValue.headerWithProof hwp) =
      { db := st.db, blockIndex := st.blockIndex,
        events := st.events ++ [(hashKey, ContentType.blockHeader)],
        gossip := if hasPeers then st.gossip ++ [(hashKey, ContentType.blockHeader)]
          else st.gossip } := by
  have hval : validateHeader epochRoots st hwp hashKey =
      .error "Received block header without proof" ∨
      validateHeader epochRoots st hwp hashKey =
      .error "Received block header with invalid proof" := by
    unfold validateHeader
    rw [if_pos hpre]
    cases hp : hwp.proof with
    | none => exact Or.inl rfl
    | some w =>
        refine Or.inr ?_
        have hb := hbad w hp
        simp [hb]
  rcases hval with hval | hval <;> cases hasPeers <;> simp [store, hval]

/-- C1 witness at a concrete state and header. -/
theorem store_invalidHeaderProof_witness :
    store (fun _ => Hash.chunk 0) none none false hstate0 ContentType.blockHeader (Hash.chunk 2)
        (StoredValue.headerWithProof hwpW) =
      { db := hstate0.db, blockIndex := hstate0.blockIndex,
        events := hstate0.events ++ [(Hash.chunk 2, ContentType.blockHeader)],
        gossip := if false then hstate0.gossip ++ [(Hash.chunk 2, ContentType.blockHeader)]
          else hstate0.gossip } :=
  store_invalidHeaderProof_rejected_but_event_emitted (fun _ => Hash.chunk 0) none none false
    hstate0 hwpW (Hash.chunk 2) (by decide) (fun w h => nomatch h)

/-- C2 (code bug): a `store` call with a non-empty block body for which no
valid block can be reassembled (no usable stored header and no block
obtainable from the network) still writes the body to the durable store:
the failure branch of `addBlockBody` logs `Adding anyway for testing...` and
stores the bytes, against the claim, the spec and the surrounding code
comment. -/
theorem store_blockBody_stored_despite_invalid :
    store (fun _ => Hash.chunk 0) none none false hstate0 ContentType.blockBody (Hash.chunk 0)
        (StoredValue.raw [1]) =
      { db := [((ContentType.blockBody, Hash.chunk 0), StoredValue.raw [1])],
        blockIndex := [], events := [(Hash.chunk 0, ContentType.blockBody)], gossip := [] } :=
  rfl

/-! ## Selective-ACK theorems (C3) -/

theorem utpBitmap_getD : ∀ i, i < 32 → utpBitmap.getD i 1 = i + 1 := by decide

theorem selAck_fold_go (ackNr : Nat) (ackNrs : List (Option Nat)) (l : List Nat) :
    ∀ w : List Bool, (∀ i ∈ l, utpBitmap.getD i 1 - 1 < w.length) →
      (List.foldl
          (fun window i =>
            if ackNrs.contains (some (ackNr + 1 + i)) then
              window.set (utpBitmap.getD i 1 - 1) true
            else window)
          w l).length = w.length ∧
      ∀ j : Nat,
        (List.foldl
            (fun window i =>
              if ackNrs.contains (some (ackNr + 1 + i)) then
                window.set (utpBitmap.getD i 1 - 1) true
              else window)
            w l).getD j false =
          (w.getD j false ||
            l.any (fun i =>
              ackNrs.contains (some (ackNr + 1 + i)) && (utpBitmap.getD i 1 - 1 == j))) := by
  induction l with
  | nil => intro w _; exact ⟨rfl, by simp⟩
  | cons i l ih =>
      intro w hw
      simp only [List.foldl_cons]
      have hiw : utpBitmap.getD i 1 - 1 < w.length := hw i (List.mem_cons_self i l)
      by_cases hc : ackNrs.contains (some (ackNr + 1 + i)) = true
      · rw [if_pos hc]
        obtain ⟨ihlen, ihat⟩ := ih (w.set (utpBitmap.getD i 1 - 1) true)
          (fun k hk => by rw [List.length_set]; exact hw k (List.mem_cons_of_mem i hk))
        refine ⟨by rw [ihlen, List.length_set], fun j => ?_⟩
        rw [ihat j, List.any_cons]
        by_cases hj : j = utpBitmap.getD i 1 - 1
        · subst hj
          rw [List.getD_eq_getElem _ _ (by rw [List.length_set]; exact hiw),
            List.getElem_set_self, hc]
          simp
        · rw [List.getD_eq_getD_get?, List.get?_eq_getElem?,
            List.getElem?_set_ne (fun h => hj h.symm), ← List.get?_eq_getElem?,
            ← List.getD_eq_getD_get?]
          have hbeq : (utpBitmap.getD i 1 - 1 == j) = false :=
            beq_eq_false_iff_ne.mpr (fun h => hj h.symm)
          rw [hbeq]
          simp
      · rw [if_neg hc]
        obtain ⟨ihlen, ihat⟩ := ih w (fun k hk => hw k (List.mem_cons_of_mem i hk))
        refine ⟨ihlen, fun j => ?_⟩
        rw [ihat j, List.any_cons]
        rw [Bool.not_eq_true] at hc
        rw [hc]
        simp

theorem selAck_any_range (ackNr : Nat) (ackNrs : List (Option Nat)) (i : Nat) (hi : i < 32) :
    (List.range 32).any (fun k =>
        ackNrs.contains (some (ackNr + 1 + k)) && (utpBitmap.getD k 1 - 1 == i)) =
      ackNrs.contains (some (ackNr + 1 + i)) := by
  by_cases hci : ackNrs.contains (some (ackNr + 1 + i)) = true
  · rw [hci]
    apply List.any_eq_true.mpr
    refine ⟨i, List.mem_range.mpr hi, ?_⟩
    rw [hci, utpBitmap_getD i hi]
    simp
  · rw [Bool.not_eq_true] at hci
    rw [hci]
    apply List.any_eq_false.mpr
    intro k hk
    have hk32 := List.mem_range.mp hk
    by_cases hki : k = i
    · subst hki
      rw [hci]
      simp
    · rw [utpBitmap_getD k hk32]
      have : (k + 1 - 1 == i) = false := beq_eq_false_iff_ne.mpr (by omega)
      rw [this]
      simp

/-- C3 counterexample: a READ socket that has received seq numbers 2 and 3
in order (so `ackNr = 3`) and then receives DATA with seq 36 out of order
replies with a STATE whose selective-ACK window is all zeros, while a window
covering `ack_nr+2 ... ack_nr+33` as the claim states would have its last
bit set for seq 36 — the produced bitmap does not match the claimed
coverage. -/
theorem generateSelectiveAckBitMask_spec_cex :
    (handleDataPacket (runRead (initialReadSocket 1 2) [(2, [0]), (3, [0])]) 36 [0]).2 =
      AckReply.selective (List.replicate 32 false) ∧
    selectiveAckWindowSpec 3
        (handleDataPacket (runRead (initialReadSocket 1 2) [(2, [0]), (3, [0])]) 36 [0]).1.ackNrs
      ≠ List.replicate 32 false := by
  decide

/-! ## Chunker theorems (C7) -/

theorem chunkFuel_length (f : Nat) :
    ∀ c : List Nat, c.length ≤ f →
      (chunkFuel f c).length = (c.length + PAYLOAD_SIZE - 1) / PAYLOAD_SIZE := by
  induction f with
  | zero =>
      intro c hc
      have hnil : c = [] := List.length_eq_zero.mp (by omega)
      subst hnil; rfl
  | succ f ih =>
      intro c hc
      cases c with
      | nil => rfl
      | cons x xs =>
          show ((x :: xs).take PAYLOAD_SIZE :: chunkFuel f ((x :: xs).drop PAYLOAD_SIZE)).length =
            ((x :: xs).length + PAYLOAD_SIZE - 1) / PAYLOAD_SIZE
          rw [List.length_cons, ih _ (by
            rw [List.length_drop]
            simp only [PAYLOAD_SIZE, List.length_cons] at hc ⊢
            omega)]
          rw [List.length_drop]
          simp only [List.length_cons, PAYLOAD_SIZE]
          simp only [List.length_cons] at hc
          omega

theorem chunkFuel_flatten (f : Nat) :
    ∀ c : List Nat, c.length ≤ f → (chunkFuel f c).flatten = c := by
  induction f with
  | zero =>
      intro c hc
      have hnil : c = [] := List.length_eq_zero.mp (by omega)
      subst hnil; rfl
  | succ f ih =>
      intro c hc
      cases c with
      | nil => rfl
      | cons x xs =>
          show ((x :: xs).take PAYLOAD_SIZE :: chunkFuel f ((x :: xs).drop PAYLOAD_SIZE)).flatten =
            x :: xs
          rw [List.flatten_cons, ih _ (by
              rw [List.length_drop]
              simp only [PAYLOAD_SIZE, List.length_cons] at hc ⊢
              omega),
            List.take_append_drop]

/-- C7: for non-empty content of N bytes the writer chunker produces exactly
the ceiling of N / 512 chunks whose concatenation is the content, and the
seq numbers assigned to the chunks are distinct and form the contiguous
range starting at the writer's starting seq number. -/
theorem ContentWriter_chunk_spec (c : List Nat) (startingSeqNr : Nat) (hpos : 0 < c.length) :
    (chunk c).length = (c.length + PAYLOAD_SIZE - 1) / PAYLOAD_SIZE ∧
    (chunk c).flatten = c ∧
    (dataNrs startingSeqNr c).Nodup ∧
    ∀ s : Nat, s ∈ dataNrs startingSeqNr c ↔
      startingSeqNr ≤ s ∧ s < startingSeqNr + (chunk c).length := by
  have hdx : 0 < c.length := hpos
  refine ⟨chunkFuel_length _ _ le_rfl, chunkFuel_flatten _ _ le_rfl, ?_, ?_⟩
  · exact List.Nodup.map (fun a b hab => by omega) (List.nodup_range _)
  · intro s
    constructor
    · intro hs
      obtain ⟨i, hi, hrfl⟩ := List.mem_map.mp hs
      have := List.mem_range.mp hi
      omega
    · intro ⟨h1, h2⟩
      exact List.mem_map.mpr ⟨s - startingSeqNr, List.mem_range.mpr (by omega), by omega⟩

/-- C7 witness at a one-byte content. -/
theorem ContentWriter_chunk_spec_witness :
    (chunk [7]).length = (([7] : List Nat).length + PAYLOAD_SIZE - 1) / PAYLOAD_SIZE ∧
    (chunk [7]).flatten = [7] ∧
    (dataNrs 3 [7]).Nodup ∧
    ∀ s : Nat, s ∈ dataNrs 3 [7] ↔ 3 ≤ s ∧ s < 3 + (chunk [7]).length :=
  ContentWriter_chunk_spec [7] 3 (by decide)

/-! ## Connection-id theorems (C6) -/

/-- C6: for a flow created from initiator connection id `c`, the
FOUNDCONTENT/WRITE and ACCEPT/READ sockets get `snd = c + 1`, `rcv = c`,
the FINDCONTENT/READ and OFFER/WRITE sockets the swapped pair, and the two
ends of each flow mirror each other's ids. -/
theorem createPortalNetworkUTPSocket_connection_ids (c : Nat) :
    createPortalNetworkUTPSocket RequestCode.foundcontentWrite c =
      { sndConnectionId := c + 1, rcvConnectionId := c, role := SocketRole.write } ∧
    createPortalNetworkUTPSocket RequestCode.acceptRead c =
      { sndConnectionId := c + 1, rcvConnectionId := c, role := SocketRole.read } ∧
    createPortalNetworkUTPSocket RequestCode.findcontentRead c =
      { sndConnectionId := c, rcvConnectionId := c + 1, role := SocketRole.read } ∧
    createPortalNetworkUTPSocket RequestCode.offerWrite c =
      { sndConnectionId := c, rcvConnectionId := c + 1, role := SocketRole.write } ∧
    (createPortalNetworkUTPSocket RequestCode.foundcontentWrite c).sndConnectionId =
      (createPortalNetworkUTPSocket RequestCode.findcontentRead c).rcvConnectionId ∧
    (createPortalNetworkUTPSocket RequestCode.foundcontentWrite c).rcvConnectionId =
      (createPortalNetworkUTPSocket RequestCode.findcontentRead c).sndConnectionId ∧
    (createPortalNetworkUTPSocket RequestCode.offerWrite c).sndConnectionId =
      (createPortalNetworkUTPSocket RequestCode.acceptRead c).rcvConnectionId ∧
    (createPortalNetworkUTPSocket RequestCode.offerWrite c).rcvConnectionId =
      (createPortalNetworkUTPSocket RequestCode.acceptRead c).sndConnectionId :=
  ⟨rfl, rfl, rfl, rfl, rfl, rfl, rfl, rfl⟩

/-! ## Gossip theorems (C5) -/

/-- C5: an OFFER is sent to a peer only if it is among the 5 nearest peers
to the content id, its advertised radius covers the content id, and it has
not been OFFERed this key before. -/
theorem gossipHistoryNetworkContent_offer_conditions
    (peers : List GossipPeer) (contentKey contentId : Nat) (p : GossipPeer)
    (hp : p ∈ gossipHistoryNetworkContent peers contentKey contentId) :
    p ∈ nearest peers contentId 5 ∧
      distance p.nodeId contentId ≤ p.radius ∧
      contentKey ∉ p.knownContent := by
  unfold gossipHistoryNetworkContent at hp
  obtain ⟨hmem, hcond⟩ := List.mem_filter.mp hp
  rw [Bool.and_eq_true, Bool.not_eq_true'] at hcond
  obtain ⟨hknown, hdist⟩ := hcond
  refine ⟨hmem, le_of_lt (of_decide_eq_true hdist), fun hk => ?_⟩
  rw [List.contains, List.elem_eq_mem, decide_eq_false_iff_not] at hknown
  exact hknown hk

/-- C5 witness at a concrete peer list. -/
theorem gossipHistoryNetworkContent_offer_conditions_witness :
    gossipW ∈ nearest [gossipW] 1 5 ∧
      distance gossipW.nodeId 1 ≤ gossipW.radius ∧
      (5 : Nat) ∉ gossipW.knownContent :=
  gossipHistoryNetworkContent_offer_conditions [gossipW] 5 1 gossipW (by decide)

/-! ## Send path theorems (C10) -/

/-- C10: `sendPortalNetworkMessage` never throws when its `networkId`
argument is an overlay network: a missing reachable address or a TALKREQ
failure yields an empty byte array.  A propagated exception implies the call
was a uTP datagram send (the wire protocol id is the uTP one), and the uTP
`Send` handler turns such an exception into removal of the open content
request while a successful send leaves the request table alone. -/
theorem sendPortalNetworkMessage_error_policy (env : SendEnv) (networkId : NetId)
    (utpMessage : Option Bool) :
    (networkId ≠ NetId.utp →
      ∀ e : String, sendPortalNetworkMessage env networkId utpMessage ≠ .error e) ∧
    ((env.enrDirect || (env.networkRegistered && env.routingHit)) = false →
      sendPortalNetworkMessage env networkId utpMessage = .ok []) ∧
    (networkId ≠ NetId.utp → env.talkFails = true →
      sendPortalNetworkMessage env networkId utpMessage = .ok []) ∧
    (∀ e : String, sendPortalNetworkMessage env networkId utpMessage = .error e →
      networkId = NetId.utp ∧ messageNetworkOf networkId utpMessage = NetId.utp) ∧
    (∀ (reqs : List ((String × Nat) × Nat)) (peerId : String) (connId : Nat) (e : String),
      utpSendHandler reqs peerId connId (.error e) = closeRequest reqs connId peerId) ∧
    (∀ (reqs : List ((String × Nat) × Nat)) (peerId : String) (connId : Nat) (r : List Nat),
      utpSendHandler reqs peerId connId (.ok r) = reqs) := by
  refine ⟨?_, ?_, ?_, ?_, fun _ _ _ _ => rfl, fun _ _ _ _ => rfl⟩
  · intro hnid e
    by_cases h1 : (env.enrDirect || (env.networkRegistered && env.routingHit)) = false
    · simp [sendPortalNetworkMessage, h1]
    · by_cases h2 : env.talkFails
      · simp [sendPortalNetworkMessage, h1, h2, hnid]
      · simp [sendPortalNetworkMessage, h1, h2]
  · intro h1
    simp [sendPortalNetworkMessage, h1]
  · intro hnid h2
    by_cases h1 : (env.enrDirect || (env.networkRegistered && env.routingHit)) = false
    · simp [sendPortalNetworkMessage, h1]
    · simp [sendPortalNetworkMessage, h1, h2, hnid]
  · intro e he
    by_cases h1 : (env.enrDirect || (env.networkRegistered && env.routingHit)) = false
    · simp [sendPortalNetworkMessage, h1] at he
    · by_cases h2 : env.talkFails
      · by_cases h3 : networkId = NetId.utp
        · refine ⟨h3, ?_⟩
          subst h3
          cases utpMessage <;> simp [messageNetworkOf]
        · simp [sendPortalNetworkMessage, h1, h2, h3] at he
      · simp [sendPortalNetworkMessage, h1, h2] at he

/-- C10 witness: a call with no reachable address on the history network
returns an empty byte array. -/
theorem sendPortalNetworkMessage_error_policy_witness :
    sendPortalNetworkMessage envW NetId.history none = .ok [] :=
  (sendPortalNetworkMessage_error_policy envW NetId.history none).2.1 (by decide)

/-! ## Sparse-array and run lemmas for the READ socket (C4) -/

theorem getD_drop {α : Type} (l : List (Option α)) (n j : Nat) :
    (l.drop n).getD j none = l.getD (n + j) none := by
  rw [List.getD_eq_getD_get?, List.getD_eq_getD_get?, List.get?_eq_getElem?,
    List.get?_eq_getElem?, List.getElem?_drop]

theorem setAt_length {α : Type} (l : List (Option α)) (i : Nat) (v : α) :
    (setAt l i v).length = max l.length (i + 1) := by
  unfold setAt
  by_cases h : i < l.length
  · rw [if_pos h, List.length_set]
    omega
  · rw [if_neg h]
    simp only [List.length_append, List.length_replicate, List.length_singleton]
    omega

theorem setAt_getD {α : Type} (l : List (Option α)) (i : Nat) (v : α) (j : Nat) :
    (setAt l i v).getD j none = if j = i then some v else l.getD j none := by
  unfold setAt
  by_cases h : i < l.length
  · rw [if_pos h]
    by_cases hj : j = i
    · subst hj
      rw [if_pos rfl, List.getD_eq_getElem _ _ (by rw [List.length_set]; exact h),
        List.getElem_set_self]
    · rw [if_neg hj, List.getD_eq_getD_get?, List.get?_eq_getElem?,
        List.getElem?_set_ne (fun hh => hj hh.symm), ← List.get?_eq_getElem?,
        ← List.getD_eq_getD_get?]
  · rw [if_neg h]
    by_cases hj : j = i
    · subst hj
      rw [if_pos rfl,
        List.getD_append_right (l ++ List.replicate (j - l.length) none) [some v] none j
          (by simp only [List.length_append, List.length_replicate]; omega)]
      simp only [List.length_append, List.length_replicate]
      have hz : j - (l.length + (j - l.length)) = 0 := by omega
      rw [hz]
      rfl
    · rw [if_neg hj]
      by_cases hjl : j < l.length
      · rw [List.getD_append _ _ _ _
            (by simp only [List.length_append, List.length_replicate]; omega),
          List.getD_append _ _ _ _ hjl]
      · rw [List.getD_eq_default _ _ (by omega : l.length ≤ j)]
        by_cases hji : j < i
        · rw [List.getD_append _ _ _ _
              (by simp only [List.length_append, List.length_replicate]; omega),
            List.getD_append_right _ _ _ _ (by omega),
            List.getD_eq_getElem _ _ (by simp only [List.length_replicate]; omega),
            List.getElem_replicate]
        · rw [List.getD_eq_default _ _
            (by simp only [List.length_append, List.length_replicate, List.length_singleton]
                omega)]

theorem handleDataPacket_selective (st : ReadSocket) (s : Nat) (payload : List Nat) (b : Nat)
    (hb0 : st.ackNrs.getD 0 none = some b) (hbs : b ≤ s) (hlen2 : 1 < st.ackNrs.length)
    (hexp : st.ackNr + 1 ≠ s) :
    (handleDataPacket st s payload).2 =
      AckReply.selective (generateSelectiveAckBitMask st.ackNr (setAt st.ackNrs (s - b) s)) := by
  obtain ⟨sq, an, bufs, gf, fnr, rs, rd⟩ := st
  dsimp only at hb0 hlen2 hexp ⊢
  unfold handleDataPacket
  dsimp only
  rw [if_pos hlen2, hb0]
  dsimp only
  rw [if_pos hbs, decide_eq_false hexp, if_neg Bool.false_ne_true]

/-- C3 (amended): the selective-ACK window produced after out-of-order DATA
covers the 32 sequence numbers `ack_nr+1` through `ack_nr+32`: the window
bit for loop index `i` is set iff seq number `ack_nr+1+i` is among the
received list (seq `ack_nr+33` is not represented); moreover a DATA packet
that arrives when more than one seq number is recorded and is not the
expected `ack_nr+1` is answered with a STATE carrying exactly this bitmask
over the updated received array. -/
theorem generateSelectiveAckBitMask_covers (ackNr : Nat) (ackNrs : List (Option Nat)) (i : Nat)
    (hi : i < 32) :
    ((generateSelectiveAckBitMask ackNr ackNrs).length = 32 ∧
      (generateSelectiveAckBitMask ackNr ackNrs).getD i false =
        ackNrs.contains (some (ackNr + 1 + i))) ∧
    (∀ (st : ReadSocket) (s : Nat) (payload : List Nat) (b : Nat),
      st.ackNrs.getD 0 none = some b → b ≤ s → 1 < st.ackNrs.length → st.ackNr + 1 ≠ s →
      (handleDataPacket st s payload).2 =
        AckReply.selective (generateSelectiveAckBitMask st.ackNr (setAt st.ackNrs (s - b) s))) := by
  refine ⟨?_, fun st s payload b hb0 hbs hlen2 hexp =>
    handleDataPacket_selective st s payload b hb0 hbs hlen2 hexp⟩
  obtain ⟨hlen, hat⟩ := selAck_fold_go ackNr ackNrs (List.range 32) (List.replicate 32 false)
    (by decide)
  refine ⟨by rw [generateSelectiveAckBitMask, hlen]; rfl, ?_⟩
  rw [generateSelectiveAckBitMask, hat i, selAck_any_range ackNr ackNrs i hi,
    List.getD_eq_getElem _ _ (show i < (List.replicate 32 false).length by simpa using hi),
    List.getElem_replicate, Bool.false_or]

/-- C3 witness: the bitmap characterization at a concrete window, and the
selective reply for a concrete out-of-order packet. -/
theorem generateSelectiveAckBitMask_covers_witness :
    ((generateSelectiveAckBitMask 0 [some 1]).length = 32 ∧
      (generateSelectiveAckBitMask 0 [some 1]).getD 0 false =
        [some 1].contains (some (0 + 1 + 0))) ∧
    (handleDataPacket
        { seqNr := 3, ackNr := 3, ackNrs := [some 2, some 3], gotFin := false, finNr := none,
          readerStart := 2, reader := [some [0], some [0]] } 36 [0]).2 =
      AckReply.selective (generateSelectiveAckBitMask 3 (setAt [some 2, some 3] (36 - 2) 36)) :=
  ⟨(generateSelectiveAckBitMask_covers 0 [some 1] 0 (by decide)).1,
    (generateSelectiveAckBitMask_covers 0 [some 1] 0 (by decide)).2
      { seqNr := 3, ackNr := 3, ackNrs := [some 2, some 3], gotFin := false, finNr := none,
        readerStart := 2, reader := [some [0], some [0]] } 36 [0] 2
      (by decide) (by decide) (by decide) (by decide)⟩

theorem foldl_max_le_init (f : Nat → Nat) (l : List Nat) :
    ∀ a : Nat, a ≤ l.foldl (fun m s => max m (f s)) a := by
  induction l with
  | nil => intro a; exact le_rfl
  | cons x l ih => intro a; exact le_trans (le_max_left a (f x)) (ih _)

theorem foldl_max_mem (f : Nat → Nat) (l : List Nat) :
    ∀ (a s : Nat), s ∈ l → f s ≤ l.foldl (fun m s => max m (f s)) a := by
  induction l with
  | nil => intro a s hs; cases hs
  | cons x l ih =>
      intro a s hs
      rcases List.mem_cons.mp hs with rfl | hs
      · exact le_trans (le_max_right a (f s)) (foldl_max_le_init f l _)
      · exact ih _ s hs

theorem foldl_max_le (f : Nat → Nat) (l : List Nat) :
    ∀ a b : Nat, a ≤ b → (∀ s ∈ l, f s ≤ b) → l.foldl (fun m s => max m (f s)) a ≤ b := by
  induction l with
  | nil => intro a b hab _; exact hab
  | cons x l ih =>
      intro a b hab hall
      exact ih _ _ (max_le hab (hall x (List.mem_cons_self x l)))
        (fun s hs => hall s (List.mem_cons_of_mem x hs))

theorem bufLen_append (base : Nat) (d : List Nat) (s : Nat) :
    bufLen base (d ++ [s]) = max (bufLen base d) (s - base + 1) := by
  unfold bufLen
  rw [List.foldl_append]
  rfl

theorem bufLen_mem (base : Nat) (d : List Nat) (s : Nat) (hs : s ∈ d) :
    s - base + 1 ≤ bufLen base d :=
  foldl_max_mem (fun s => s - base + 1) d 0 s hs

/-! ## Run-length lemmas -/

theorem runLen_eq (base : Nat) (d : List Nat) (m : Nat) (hm : m ≤ d.length)
    (hP : ∀ j < m, base + j ∈ d) (hnot : base + m ∉ d) : runLen base d = m := by
  unfold runLen
  rw [Nat.findGreatest_eq_iff]
  exact ⟨hm, fun _ => hP, fun n hmn _ hPn => hnot (hPn m hmn)⟩

theorem runLen_le (base : Nat) (d : List Nat) : runLen base d ≤ d.length := by
  unfold runLen
  exact Nat.findGreatest_le d.length

theorem runLen_spec (base : Nat) (d : List Nat) : ∀ j, j < runLen base d → base + j ∈ d := by
  intro j hj
  by_cases h0 : runLen base d = 0
  · omega
  · have h := Nat.findGreatest_eq_iff.mp
      (rfl : Nat.findGreatest (fun m => ∀ j < m, (base + j) ∈ d) d.length = runLen base d)
    exact h.2.1 h0 j hj

theorem runLen_pos (base : Nat) (d : List Nat) (h : base ∈ d) : 1 ≤ runLen base d := by
  unfold runLen
  apply Nat.le_findGreatest
  · exact List.length_pos.mpr (List.ne_nil_of_mem h)
  · intro j hj
    have hj0 : j = 0 := by omega
    subst hj0
    simpa using h

theorem runLen_not_mem (base : Nat) (d : List Nat) : base + runLen base d ∉ d := by
  intro hmem
  by_cases hcap : runLen base d < d.length
  · have hP : ∀ j < runLen base d + 1, (base + j) ∈ d := by
      intro j hj
      by_cases hjr : j < runLen base d
      · exact runLen_spec base d j hjr
      · have hje : j = runLen base d := by omega
        subst hje
        exact hmem
    have hcontra : runLen base d + 1 ≤ runLen base d := by
      unfold runLen
      exact Nat.le_findGreatest (Nat.succ_le_of_lt hcap) hP
    omega
  · have hlen : runLen base d = d.length := by
      have := runLen_le base d
      omega
    have hsub : ((List.range d.length).map (base + ·)) ⊆ d := by
      intro x hx
      obtain ⟨j, hj, rfl⟩ := List.mem_map.mp hx
      exact runLen_spec base d j (by rw [hlen]; exact List.mem_range.mp hj)
    have hnd' : ((List.range d.length).map (base + ·)).Nodup :=
      List.Nodup.map (fun a b hab => by omega) (List.nodup_range _)
    have hperm := (List.subperm_of_subset hnd' hsub).perm_of_length_le (by simp)
    have hmem' := hperm.mem_iff.mpr hmem
    obtain ⟨j, hj, heq⟩ := List.mem_map.mp hmem'
    have hjr := List.mem_range.mp hj
    omega

theorem runLen_append_of_ne (base : Nat) (d : List Nat) (s : Nat)
    (hs : s ≠ base + runLen base d) : runLen base (d ++ [s]) = runLen base d := by
  apply runLen_eq
  · rw [List.length_append]
    have := runLen_le base d
    simp only [List.length_singleton]
    omega
  · intro j hj
    exact List.mem_append_left _ (runLen_spec base d j hj)
  · intro hmem
    rcases List.mem_append.mp hmem with h | h
    · exact runLen_not_mem base d h
    · rw [List.mem_singleton] at h
      exact hs h.symm

theorem runLen_append_ge (base : Nat) (d : List Nat) :
    runLen base d + 1 ≤ runLen base (d ++ [base + runLen base d]) := by
  have hb : runLen base d + 1 ≤ (d ++ [base + runLen base d]).length := by
    rw [List.length_append, List.length_singleton]
    have := runLen_le base d
    omega
  have hP : ∀ j < runLen base d + 1, (base + j) ∈ d ++ [base + runLen base d] := by
    intro j hj
    by_cases hjr : j < runLen base d
    · exact List.mem_append_left _ (runLen_spec base d j hjr)
    · have hje : j = runLen base d := by omega
      subst hje
      exact List.mem_append_right _ (List.mem_singleton.mpr rfl)
  unfold runLen
  exact Nat.le_findGreatest hb hP

theorem lastOfRun_of_run {α : Type} : ∀ (m : Nat) (l : List (Option α)) (g : Nat → α),
    (∀ j < m + 1, l.getD j none = some (g j)) → l.getD (m + 1) none = none →
    lastOfRun l = some (g m) := by
  intro m
  induction m with
  | zero =>
      intro l g hrun hend
      cases l with
      | nil => exact absurd (hrun 0 (by omega)) (by simp)
      | cons x tail =>
          have hx : x = some (g 0) := by simpa using hrun 0 (by omega)
          cases tail with
          | nil => simpa [lastOfRun] using hx
          | cons y rest =>
              have hy : y = none := by simpa using hend
              rw [hx, hy]
              simp [lastOfRun]
  | succ m ih =>
      intro l g hrun hend
      cases l with
      | nil => exact absurd (hrun 0 (by omega)) (by simp)
      | cons x tail =>
          cases tail with
          | nil => exact absurd (hrun 1 (by omega)) (by simp)
          | cons y rest =>
              have hy : y = some (g 1) := by simpa using hrun 1 (by omega)
              have htail := ih (y :: rest) (fun j => g (j + 1))
                (fun j hj => by
                  have := hrun (j + 1) (by omega)
                  simpa using this)
                (by simpa using hend)
              rw [hy] at htail ⊢
              rw [show lastOfRun (x :: some (g 1) :: rest) = lastOfRun (some (g 1) :: rest) by
                simp [lastOfRun]]
              exact htail

theorem bufRep_append (base : Nat) (d : List Nat) (buf : List (Option Nat)) (s : Nat)
    (hrep : BufRep base d buf) (hs : base ≤ s) :
    BufRep base (d ++ [s]) (setAt buf (s - base) s) := by
  obtain ⟨hlen, hat⟩ := hrep
  constructor
  · rw [setAt_length, hlen, bufLen_append]
  · intro j
    rw [setAt_getD]
    by_cases hj : j = s - base
    · rw [if_pos hj]
      rw [show base + j = s by omega]
      simp
    · rw [if_neg hj, hat j]
      have hne : base + j ≠ s := by omega
      by_cases hmem : base + j ∈ d
      · rw [if_pos hmem, if_pos (List.mem_append_left _ hmem)]
      · rw [if_neg hmem, if_neg (by
          intro hcon
          rcases List.mem_append.mp hcon with h | h
          · exact hmem h
          · rw [List.mem_singleton] at h
            exact hne h)]

theorem handleDataPacket_eq (st : ReadSocket) (s : Nat) (payload : List Nat) (b : Nat)
    (hb0 : st.ackNrs.getD 0 none = some b) (hbs : b ≤ s) (hlen2 : 1 < st.ackNrs.length) :
    (handleDataPacket st s payload).1 =
      if st.ackNr + 1 = s then
        { st with seqNr := st.seqNr + 1,
                  ackNr := (lastOfRun ((setAt st.ackNrs (s - b) s).drop (s - b))).getD 0,
                  ackNrs := setAt st.ackNrs (s - b) s,
                  reader := readerAdd st.readerStart st.reader s payload }
      else
        { st with seqNr := st.seqNr + 1,
                  ackNrs := setAt st.ackNrs (s - b) s,
                  reader := readerAdd st.readerStart st.reader s payload } := by
  obtain ⟨sq, an, bufs, gf, fnr, rs, rd⟩ := st
  dsimp only at hb0 hlen2 ⊢
  unfold handleDataPacket
  dsimp only
  rw [if_pos hlen2, hb0]
  dsimp only
  rw [if_pos hbs]
  have hbuf0 : (setAt bufs (s - b) s).getD 0 none = some b := by
    rw [setAt_getD]
    by_cases h0 : (0 : Nat) = s - b
    · rw [if_pos h0]
      rw [show s = b by omega]
    · rw [if_neg h0]
      exact hb0
  rw [hbuf0]
  dsimp only
  rw [if_pos hbs]
  by_cases hexp : an + 1 = s
  · rw [decide_eq_true hexp, if_pos rfl, if_pos hexp, apply_ite Prod.fst]
    dsimp only
    rw [ite_self]
  · rw [decide_eq_false hexp, if_neg Bool.false_ne_true, if_neg hexp]

theorem ackInv_step (base : Nat) (d : List Nat) (st : ReadSocket) (s : Nat) (payload : List Nat)
    (hinv : AckInv base d st) (hbase : base ∈ d) (hb1 : base + 1 ∈ d)
    (hs : base ≤ s) (hnew : s ∉ d) :
    AckInv base (d ++ [s]) (handleDataPacket st s payload).1 := by
  obtain ⟨⟨hlen, hat⟩, hack⟩ := hinv
  have hr1 : 1 ≤ runLen base d := runLen_pos base d hbase
  have hb0 : st.ackNrs.getD 0 none = some base := by
    rw [hat 0]
    simp [hbase]
  have hlen2 : 1 < st.ackNrs.length := by
    rw [hlen]
    have := bufLen_mem base d (base + 1) hb1
    omega
  rw [handleDataPacket_eq st s payload base hb0 hs hlen2]
  have hrep' : BufRep base (d ++ [s]) (setAt st.ackNrs (s - base) s) :=
    bufRep_append base d st.ackNrs s ⟨hlen, hat⟩ hs
  by_cases hexp : st.ackNr + 1 = s
  · rw [if_pos hexp]
    have hsr : s = base + runLen base d := by omega
    have hge : runLen base d + 1 ≤ runLen base (d ++ [s]) := by
      rw [hsr]
      exact runLen_append_ge base d
    have hnot' : base + runLen base (d ++ [s]) ∉ d ++ [s] := runLen_not_mem base (d ++ [s])
    have hlast : lastOfRun ((setAt st.ackNrs (s - base) s).drop (s - base)) =
        some (base + runLen base (d ++ [s]) - 1) := by
      have hrun := lastOfRun_of_run (runLen base (d ++ [s]) - runLen base d - 1)
        ((setAt st.ackNrs (s - base) s).drop (s - base))
        (fun j => base + (s - base + j))
        (by
          intro j hj
          rw [getD_drop, hrep'.2 (s - base + j),
            if_pos (runLen_spec base (d ++ [s]) (s - base + j) (by omega))])
        (by
          rw [getD_drop, hrep'.2 (s - base + (runLen base (d ++ [s]) - runLen base d - 1 + 1))]
          rw [show base + (s - base + (runLen base (d ++ [s]) - runLen base d - 1 + 1)) =
            base + runLen base (d ++ [s]) by omega]
          rw [if_neg hnot'])
      rw [hrun]
      congr 1
      dsimp only
      omega
    refine ⟨hrep', ?_⟩
    show (lastOfRun ((setAt st.ackNrs (s - base) s).drop (s - base))).getD 0 =
      base + runLen base (d ++ [s]) - 1
    rw [hlast]
    rfl
  · rw [if_neg hexp]
    have hsne : s ≠ base + runLen base d := by omega
    refine ⟨hrep', ?_⟩
    show st.ackNr = base + runLen base (d ++ [s]) - 1
    rw [runLen_append_of_ne base d s hsne]
    exact hack

theorem runRead_one (a0 base : Nat) (p1 : List Nat) :
    runRead (initialReadSocket a0 base) [(base, p1)] =
      { seqNr := 2, ackNr := base, ackNrs := [some base], gotFin := false, finNr := none,
        readerStart := base, reader := [some p1] } := by
  simp [runRead, handleDataPacket, initialReadSocket, setAt, lastOfRun, readerAdd]

theorem runRead_two (a0 base : Nat) (p1 p2 : List Nat) :
    runRead (initialReadSocket a0 base) [(base, p1), (base + 1, p2)] =
      { seqNr := 3, ackNr := base + 1, ackNrs := [some base, some (base + 1)],
        gotFin := false, finNr := none, readerStart := base,
        reader := [some p1, some p2] } := by
  simp [runRead, handleDataPacket, initialReadSocket, setAt, lastOfRun, readerAdd,
    List.replicate]

theorem ackInv_two (a0 base : Nat) (p1 p2 : List Nat) :
    AckInv base [base, base + 1]
      (runRead (initialReadSocket a0 base) [(base, p1), (base + 1, p2)]) := by
  rw [runRead_two]
  refine ⟨⟨?_, ?_⟩, ?_⟩
  · show (2 : Nat) = bufLen base [base, base + 1]
    unfold bufLen
    simp only [List.foldl_cons, List.foldl_nil]
    omega
  · intro j
    match j with
    | 0 => simp
    | 1 => simp
    | (j + 2) =>
        rw [List.getD_eq_default _ _ (by simp),
          if_neg (by
            simp only [List.mem_cons, List.mem_nil_iff, or_false, not_or]
            omega)]
  · show base + 1 = base + runLen base [base, base + 1] - 1
    rw [runLen_eq base [base, base + 1] 2 (by simp)
      (by
        intro j hj
        interval_cases j <;> simp)
      (by
        simp only [List.mem_cons, List.mem_nil_iff, or_false, not_or]
        omega)]
    omega

theorem ackInv_fold (base : Nat) (payload : Nat → List Nat) :
    ∀ (rest d : List Nat) (st : ReadSocket),
      AckInv base d st → base ∈ d → base + 1 ∈ d →
      (d ++ rest).Nodup → (∀ s ∈ rest, base ≤ s) →
      ∀ k, k ≤ rest.length →
        AckInv base (d ++ rest.take k)
          (runRead st ((rest.take k).map (fun s => (s, payload s)))) := by
  intro rest
  induction rest with
  | nil =>
      intro d st hinv _ _ _ _ k hk
      have hk0 : k = 0 := by simpa using hk
      subst hk0
      simpa [runRead] using hinv
  | cons s rest ih =>
      intro d st hinv hbase hb1 hnd hge k hk
      cases k with
      | zero => simpa [runRead] using hinv
      | succ k =>
          have hsd : s ∉ d := by
            intro hmem
            exact (List.nodup_append.mp hnd).2.2 hmem (List.mem_cons_self s rest)
          have hstep := ackInv_step base d st s (payload s) hinv hbase hb1
            (hge s (List.mem_cons_self s rest)) hsd
          have hnd' : ((d ++ [s]) ++ rest).Nodup := by
            rw [List.append_assoc, List.singleton_append]
            exact hnd
          have hres := ih (d ++ [s]) ((handleDataPacket st s (payload s)).1) hstep
            (List.mem_append_left _ hbase) (List.mem_append_left _ hb1) hnd'
            (fun x hx => hge x (List.mem_cons_of_mem s hx)) k (by simpa using hk)
          rw [List.take_succ_cons, List.map_cons,
            show d ++ s :: rest.take k = (d ++ [s]) ++ rest.take k by
              rw [List.append_assoc, List.singleton_append]]
          exact hres

theorem handleDataPacket_reader (st : ReadSocket) (s : Nat) (payload : List Nat) :
    (handleDataPacket st s payload).1.reader = readerAdd st.readerStart st.reader s payload ∧
    (handleDataPacket st s payload).1.readerStart = st.readerStart := by
  obtain ⟨sq, an, bufs, gf, fnr, rs, rd⟩ := st
  unfold handleDataPacket
  refine ⟨?_, ?_⟩ <;>
    · dsimp only
      repeat' split
      all_goals rfl

theorem runRead_reader (pkts : List (Nat × List Nat)) :
    ∀ st : ReadSocket,
      (runRead st pkts).reader =
        pkts.foldl (fun r p => readerAdd st.readerStart r p.1 p.2) st.reader ∧
      (runRead st pkts).readerStart = st.readerStart := by
  induction pkts with
  | nil => intro st; exact ⟨rfl, rfl⟩
  | cons p pkts ih =>
      intro st
      have hstep := handleDataPacket_reader st p.1 p.2
      obtain ⟨ihr, ihs⟩ := ih ((handleDataPacket st p.1 p.2).1)
      constructor
      · show (runRead ((handleDataPacket st p.1 p.2).1) pkts).reader = _
        rw [ihr, hstep.1, hstep.2, List.foldl_cons]
      · show (runRead ((handleDataPacket st p.1 p.2).1) pkts).readerStart = st.readerStart
        rw [ihs, hstep.2]

theorem readerFold_getD (base : Nat) (payload : Nat → List Nat) :
    ∀ (seqs : List Nat) (r : List (Option (List Nat))) (j : Nat),
      (∀ s ∈ seqs, base ≤ s) →
      ((seqs.map (fun s => (s, payload s))).foldl
          (fun r p => readerAdd base r p.1 p.2) r).getD j none =
        if base + j ∈ seqs then some (payload (base + j)) else r.getD j none := by
  intro seqs
  induction seqs with
  | nil => intro r j _; simp
  | cons s seqs ih =>
      intro r j hge
      rw [List.map_cons, List.foldl_cons,
        ih (readerAdd base r s (payload s)) j (fun x hx => hge x (List.mem_cons_of_mem s hx))]
      have hbs : base ≤ s := hge s (List.mem_cons_self s seqs)
      unfold readerAdd
      rw [if_pos hbs, setAt_getD]
      by_cases hmem : base + j ∈ seqs
      · rw [if_pos hmem, if_pos (List.mem_cons_of_mem s hmem)]
      · rw [if_neg hmem]
        by_cases hj : j = s - base
        · rw [if_pos hj, if_pos (by rw [List.mem_cons]; left; omega),
            show base + j = s by omega]
        · rw [if_neg hj, if_neg (by
            intro hcon
            rcases List.mem_cons.mp hcon with heq | hmem2
            · exact hj (by omega)
            · exact hmem hmem2)]

theorem readerFold_length (base : Nat) (payload : Nat → List Nat) :
    ∀ (seqs : List Nat) (r : List (Option (List Nat))),
      (∀ s ∈ seqs, base ≤ s) →
      ((seqs.map (fun s => (s, payload s))).foldl
          (fun r p => readerAdd base r p.1 p.2) r).length =
        seqs.foldl (fun m s => max m (s - base + 1)) r.length := by
  intro seqs
  induction seqs with
  | nil => intro r _; rfl
  | cons s seqs ih =>
      intro r hge
      rw [List.map_cons, List.foldl_cons, List.foldl_cons,
        ih _ (fun x hx => hge x (List.mem_cons_of_mem s hx))]
      congr 1
      unfold readerAdd
      rw [if_pos (hge s (List.mem_cons_self s seqs)), setAt_length]

theorem insertBySeq_perm (p : Nat × List Nat) (l : List (Nat × List Nat)) :
    List.Perm (insertBySeq p l) (p :: l) := by
  induction l with
  | nil => exact List.Perm.refl _
  | cons q l ih =>
      unfold insertBySeq
      by_cases h : p.1 ≤ q.1
      · rw [if_pos h]
      · rw [if_neg h]
        exact List.Perm.trans (List.Perm.cons q ih) (List.Perm.swap p q l)

theorem sortBySeq_perm (l : List (Nat × List Nat)) : List.Perm (sortBySeq l) l := by
  induction l with
  | nil => exact List.Perm.refl _
  | cons p l ih =>
      unfold sortBySeq
      exact List.Perm.trans (insertBySeq_perm p (sortBySeq l)) (List.Perm.cons p ih)

theorem insertBySeq_sorted (p : Nat × List Nat) (l : List (Nat × List Nat))
    (hs : List.Sorted (fun a b : Nat × List Nat => a.1 ≤ b.1) l) :
    List.Sorted (fun a b : Nat × List Nat => a.1 ≤ b.1) (insertBySeq p l) := by
  induction l with
  | nil => simp [insertBySeq]
  | cons q l ih =>
      unfold insertBySeq
      by_cases h : p.1 ≤ q.1
      · rw [if_pos h]
        refine List.Pairwise.cons ?_ hs
        intro b hb
        rcases List.mem_cons.mp hb with rfl | hb
        · exact h
        · exact le_trans h ((List.pairwise_cons.mp hs).1 b hb)
      · rw [if_neg h]
        have hq := List.pairwise_cons.mp hs
        refine List.Pairwise.cons ?_ (ih hq.2)
        intro b hb
        have hmem := (insertBySeq_perm p l).mem_iff.mp hb
        rcases List.mem_cons.mp hmem with rfl | hb2
        · omega
        · exact hq.1 b hb2

theorem sortBySeq_sorted (l : List (Nat × List Nat)) :
    List.Sorted (fun a b : Nat × List Nat => a.1 ≤ b.1) (sortBySeq l) := by
  induction l with
  | nil => simp [sortBySeq]
  | cons p l ih => exact insertBySeq_sorted p (sortBySeq l) ih

theorem sortBySeq_eq_of_perm (pkts C : List (Nat × List Nat))
    (hperm : List.Perm pkts C)
    (hCsorted : List.Sorted (fun a b : Nat × List Nat => a.1 < b.1) C)
    (hnd : (pkts.map Prod.fst).Nodup) :
    sortBySeq pkts = C := by
  apply List.eq_of_perm_of_sorted (r := fun a b : Nat × List Nat => a.1 < b.1)
    (List.Perm.trans (sortBySeq_perm pkts) hperm) ?_ hCsorted
  have hle := sortBySeq_sorted pkts
  have hndp : ((sortBySeq pkts).map Prod.fst).Nodup :=
    (((sortBySeq_perm pkts).map Prod.fst).nodup_iff).mpr hnd
  have hpne : List.Pairwise (fun a b : Nat × List Nat => a.1 ≠ b.1) (sortBySeq pkts) :=
    List.pairwise_map.mp hndp
  exact (hle.and hpne).imp (fun h => lt_of_le_of_ne h.1 h.2)

theorem filterMap_id_map_some {α β : Type} (f : α → β) (l : List α) :
    (l.map (fun x => some (f x))).filterMap id = l.map f := by
  induction l with
  | nil => rfl
  | cons x l ih => simp [List.filterMap_cons, ih]

/-- C4 counterexample: a READ socket at `ackNr = 10` receives seq 11 (in
order) and then seq 13 (out of order, as only the second recorded packet):
the source classifies any packet as in-order while at most one entry is
recorded, so `ackNr` jumps to 13 although the largest contiguous seq number
received is 11 — refuting the claim for arbitrary delivery orders. -/
theorem handleDataPacket_ack_cex :
    (runRead (initialReadSocket 10 11) [(11, [0]), (13, [0])]).ackNr = 13 ∧
    11 + runLen 11 [11, 13] - 1 = 11 ∧ (13 : Nat) ≠ 11 := by
  refine ⟨by decide, by decide, by decide⟩

/-- C4 (amended): for DATA packets with distinct seq numbers at least the
first one, whose first two deliveries are `base` and `base + 1` in order,
the socket's `ackNr` after each processed packet equals the largest
contiguous seq number received; and when the seq numbers form the contiguous
range starting at `base`, the reader's delivered content equals the
concatenation of the packets' payloads sorted by seq number.  (With an
out-of-order second delivery the ack_nr clause fails, see the
counterexample.) -/
theorem handleDataPacket_content_and_ack (a0 base : Nat) (rest : List Nat)
    (payload : Nat → List Nat)
    (hnd : (base :: (base + 1) :: rest).Nodup)
    (hge : ∀ s ∈ rest, base ≤ s) :
    (∀ k, 1 ≤ k → k ≤ (base :: (base + 1) :: rest).length →
      (runRead (initialReadSocket a0 base)
          (((base :: (base + 1) :: rest).take k).map (fun s => (s, payload s)))).ackNr =
        base + runLen base ((base :: (base + 1) :: rest).take k) - 1) ∧
    (List.Perm (base :: (base + 1) :: rest)
        ((List.range (base :: (base + 1) :: rest).length).map (fun j => base + j)) →
      readerBytes
          (runRead (initialReadSocket a0 base)
            ((base :: (base + 1) :: rest).map (fun s => (s, payload s)))).reader =
        sortedConcat ((base :: (base + 1) :: rest).map (fun s => (s, payload s)))) := by
  constructor
  · intro k hk1 hklen
    cases k with
    | zero => omega
    | succ k0 =>
        cases k0 with
        | zero =>
            simp only [List.take_succ_cons, List.take_zero, List.map_cons, List.map_nil]
            rw [runRead_one]
            show base = base + runLen base [base] - 1
            rw [runLen_eq base [base] 1 (by simp)
              (by
                intro j hj
                have hj0 : j = 0 := by omega
                subst hj0
                simp)
              (by
                simp only [List.mem_singleton]
                omega)]
            omega
        | succ k1 =>
            cases k1 with
            | zero =>
                simp only [List.take_succ_cons, List.take_zero, List.map_cons, List.map_nil]
                exact (ackInv_two a0 base (payload base) (payload (base + 1))).2
            | succ k2 =>
                simp only [List.take_succ_cons, List.map_cons]
                have hfold := ackInv_fold base payload rest [base, base + 1]
                  (runRead (initialReadSocket a0 base)
                    [(base, payload base), (base + 1, payload (base + 1))])
                  (ackInv_two a0 base (payload base) (payload (base + 1)))
                  (by simp) (by simp) hnd hge (k2 + 1)
                  (by
                    simp only [List.length_cons] at hklen
                    omega)
                exact hfold.2
  · intro hperm
    have hm2 : 2 ≤ (base :: (base + 1) :: rest).length := by simp
    have hmem_iff : ∀ x, x ∈ base :: (base + 1) :: rest ↔
        base ≤ x ∧ x < base + (base :: (base + 1) :: rest).length := by
      intro x
      rw [hperm.mem_iff]
      constructor
      · intro hx
        obtain ⟨j, hj, rfl⟩ := List.mem_map.mp hx
        have := List.mem_range.mp hj
        omega
      · intro hx
        exact List.mem_map.mpr ⟨x - base, List.mem_range.mpr (by omega), by omega⟩
    have hgeseqs : ∀ s ∈ base :: (base + 1) :: rest, base ≤ s := by
      intro s hs
      rcases List.mem_cons.mp hs with rfl | hs
      · exact le_rfl
      · rcases List.mem_cons.mp hs with rfl | hs
        · omega
        · exact hge s hs
    obtain ⟨hreader, -⟩ := runRead_reader
      ((base :: (base + 1) :: rest).map (fun s => (s, payload s))) (initialReadSocket a0 base)
    rw [hreader]
    show readerBytes (((base :: (base + 1) :: rest).map (fun s => (s, payload s))).foldl
        (fun r p => readerAdd base r p.1 p.2) []) = _
    have hlen_m : (((base :: (base + 1) :: rest).map (fun s => (s, payload s))).foldl
        (fun r p => readerAdd base r p.1 p.2) ([] : List (Option (List Nat)))).length =
        (base :: (base + 1) :: rest).length := by
      rw [readerFold_length base payload _ _ hgeseqs]
      apply le_antisymm
      · apply foldl_max_le
        · simp
        · intro s hs
          have := (hmem_iff s).mp hs
          omega
      · have hmem_last : base + ((base :: (base + 1) :: rest).length - 1) ∈
            base :: (base + 1) :: rest := by
          rw [hmem_iff]
          omega
        have := bufLen_mem base (base :: (base + 1) :: rest) _ hmem_last
        unfold bufLen at this
        simp only [List.length_nil] at this ⊢
        omega
    have hstore : (((base :: (base + 1) :: rest).map (fun s => (s, payload s))).foldl
        (fun r p => readerAdd base r p.1 p.2) ([] : List (Option (List Nat)))) =
        (List.range (base :: (base + 1) :: rest).length).map
          (fun j => some (payload (base + j))) := by
      apply List.ext_getElem
      · rw [hlen_m]
        simp
      · intro i h1 h2
        have hi : i < (base :: (base + 1) :: rest).length := by rw [hlen_m] at h1; exact h1
        rw [← List.getD_eq_getElem _ none h1,
          readerFold_getD base payload _ _ i hgeseqs,
          if_pos ((hmem_iff (base + i)).mpr (by omega))]
        rw [List.getElem_map, List.getElem_range]
    rw [hstore]
    have hC : sortBySeq ((base :: (base + 1) :: rest).map (fun s => (s, payload s))) =
        (List.range (base :: (base + 1) :: rest).length).map
          (fun j => (base + j, payload (base + j))) := by
      apply sortBySeq_eq_of_perm
      · have hmapped := hperm.map (fun s => (s, payload s))
        rw [List.map_map] at hmapped
        exact hmapped
      · apply List.pairwise_map.mpr
        exact (List.pairwise_lt_range _).imp (fun h => by omega)
      · have hkeys : ((base :: (base + 1) :: rest).map
            (fun s => (s, payload s))).map Prod.fst = base :: (base + 1) :: rest := by
          rw [List.map_map]
          exact List.map_id _
        rw [hkeys]
        exact hperm.nodup_iff.mpr
          (List.Nodup.map (fun a b hab => by omega) (List.nodup_range _))
    rw [sortedConcat, hC, List.flatMap_def, List.map_map]
    unfold readerBytes
    rw [filterMap_id_map_some (fun j => payload (base + j)) (List.range _)]
    rfl

/-- C4 witness at a concrete out-of-order delivery. -/
theorem handleDataPacket_content_and_ack_witness :
    (∀ k, 1 ≤ k → k ≤ ([5, 6, 8, 7] : List Nat).length →
      (runRead (initialReadSocket 0 5)
          ((([5, 6, 8, 7] : List Nat).take k).map (fun s => (s, [s])))).ackNr =
        5 + runLen 5 (([5, 6, 8, 7] : List Nat).take k) - 1) ∧
    (List.Perm ([5, 6, 8, 7] : List Nat)
        ((List.range ([5, 6, 8, 7] : List Nat).length).map (fun j => 5 + j)) →
      readerBytes
          (runRead (initialReadSocket 0 5)
            (([5, 6, 8, 7] : List Nat).map (fun s => (s, [s])))).reader =
        sortedConcat (([5, 6, 8, 7] : List Nat).map (fun s => (s, [s])))) :=
  handleDataPacket_content_and_ack 0 5 [8, 7] (fun s => [s]) (by decide)
    (by
      intro s hs
      fin_cases hs <;> omega)

end Ultralight
